import Mathlib

/-!
Verification of the data-processing core of the OPTIVER_Trading_at_the_Close
repository (`src/utils/data_processing.py`).

The pandas DataFrame is modelled as a `Table`: a list of column labels plus a
list of rows, each row a function from labels to cell values.  A cell value
(`Val`) is either a finite number (modelled exactly by `ℚ`), the missing-value
marker `nan`, or a signed infinity; arithmetic and comparisons on `Val` follow
the IEEE-754 conventions that numpy/pandas use (`0/0 = nan`, `x/0 = ±inf` for
`x ≠ 0`, every comparison against `nan` is false, `fillna` replaces only `nan`).

Each Python function of `data_processing.py` is translated to a Lean function
of the same name.  Python's in-place column assignments (which mutate the
caller's object in `data_preprocessing`) are made explicit: that function
returns a pair `(result, state of the caller's table after the call)`.
-/

/-- A pandas/numpy float cell: a finite value (exact rational), the missing
marker `NaN`, or a signed infinity. -/
inductive Val where
  | num (q : ℚ)
  | nan
  | inf
  | neginf
deriving DecidableEq

namespace Val

/-- IEEE addition as implemented by numpy: `nan` propagates, `inf + (-inf) = nan`. -/
def add : Val → Val → Val
  | nan, _ => nan
  | _, nan => nan
  | inf, neginf => nan
  | neginf, inf => nan
  | inf, _ => inf
  | _, inf => inf
  | neginf, _ => neginf
  | _, neginf => neginf
  | num a, num b => num (a + b)

/-- IEEE negation. -/
def neg : Val → Val
  | num a => num (-a)
  | nan => nan
  | inf => neginf
  | neginf => inf

/-- IEEE subtraction, `a - b = a + (-b)` (so `inf - inf = nan`). -/
def sub (a b : Val) : Val := add a (neg b)

/-- IEEE multiplication: `nan` propagates, `0 * ±inf = nan`. -/
def mul : Val → Val → Val
  | nan, _ => nan
  | _, nan => nan
  | num a, num b => num (a * b)
  | num a, inf => if a = 0 then nan else if 0 < a then inf else neginf
  | num a, neginf => if a = 0 then nan else if 0 < a then neginf else inf
  | inf, num b => if b = 0 then nan else if 0 < b then inf else neginf
  | neginf, num b => if b = 0 then nan else if 0 < b then neginf else inf
  | inf, inf => inf
  | inf, neginf => neginf
  | neginf, inf => neginf
  | neginf, neginf => inf

/-- IEEE division as numpy computes it for float arrays: `0/0 = nan`,
`x/0 = ±inf` for finite `x ≠ 0`, `x/±inf = 0`, `±inf/±inf = nan`. -/
def div : Val → Val → Val
  | nan, _ => nan
  | _, nan => nan
  | num a, num b =>
      if b = 0 then (if a = 0 then nan else if 0 < a then inf else neginf)
      else num (a / b)
  | num _, inf => num 0
  | num _, neginf => num 0
  | inf, num b => if b < 0 then neginf else inf
  | neginf, num b => if b < 0 then inf else neginf
  | inf, inf => nan
  | inf, neginf => nan
  | neginf, inf => nan
  | neginf, neginf => nan

/-- IEEE strict comparison: any comparison involving `nan` is false. -/
def lt : Val → Val → Bool
  | nan, _ => false
  | _, nan => false
  | num a, num b => a < b
  | num _, inf => true
  | num _, neginf => false
  | inf, _ => false
  | neginf, neginf => false
  | neginf, _ => true

/-- IEEE non-strict comparison: any comparison involving `nan` is false. -/
def le : Val → Val → Bool
  | nan, _ => false
  | _, nan => false
  | num a, num b => a ≤ b
  | num _, inf => true
  | num _, neginf => false
  | inf, inf => true
  | inf, _ => false
  | neginf, _ => true

end Val

/-- A row of a DataFrame: a map from column labels to cell values.  Only the
labels listed in the enclosing table's `cols` are observable. -/
def Row : Type := String → Val

/-- The default row used when indexing out of range. -/
def dRow : Row := fun _ => Val.nan

/-- A pandas DataFrame: column labels plus rows.  Duplicate column labels are
outside the model. -/
structure Table where
  cols : List String
  rows : List Row

/-- `fillna(0)` on a single cell. -/
def fillVal (v : Val) : Val := if v = Val.nan then Val.num 0 else v

/-- `_X["liquidity_imbalance"] = _X.eval("(bid_size-ask_size)/(bid_size+ask_size)")`,
row-wise. -/
def liRow (r : Row) : Row := fun c =>
  if c = "liquidity_imbalance" then
    Val.div (Val.sub (r "bid_size") (r "ask_size")) (Val.add (r "bid_size") (r "ask_size"))
  else r c

/-- `_X["matched_imbalance"] = _X.eval("(imbalance_size-matched_size)/(matched_size+imbalance_size)")`,
row-wise. -/
def miRow (r : Row) : Row := fun c =>
  if c = "matched_imbalance" then
    Val.div (Val.sub (r "imbalance_size") (r "matched_size"))
      (Val.add (r "matched_size") (r "imbalance_size"))
  else r c

/-- `_X["price_spread"] = _X["ask_price"] - _X["bid_price"]`, row-wise. -/
def spreadRow (r : Row) : Row := fun c =>
  if c = "price_spread" then Val.sub (r "ask_price") (r "bid_price") else r c

/-- `_X['market_urgency'] = _X['price_spread'] * _X['liquidity_imbalance']`,
row-wise; note it reads the two freshly assigned columns. -/
def urgRow (r : Row) : Row := fun c =>
  if c = "market_urgency" then Val.mul (r "price_spread") (r "liquidity_imbalance") else r c

/-- `_X.fillna(0, inplace=True)`: every `nan` cell of the frame becomes `0`. -/
def fillRow (r : Row) : Row := fun c => fillVal (r c)

/-- Column assignment appends a new label if it is not present yet. -/
def addColName (cols : List String) (c : String) : List String :=
  if c ∈ cols then cols else cols ++ [c]

/-- `feature_engineering` (`data_processing.py`, lines 4-27): works on a copy
of its argument, assigns the four derived columns in order, then replaces every
`NaN` of the frame with `0`. -/
def feature_engineering (X : Table) : Table :=
  { cols := addColName (addColName (addColName
      (addColName X.cols "liquidity_imbalance") "matched_imbalance") "price_spread")
      "market_urgency",
    rows := X.rows.map (fun r => fillRow (urgRow (spreadRow (miRow (liRow r))))) }

/-- The value of the ratio `(b - a) / (b + a)` used by both imbalance columns. -/
def ratioVal (b a : Val) : Val := Val.div (Val.sub b a) (Val.add b a)

theorem getD_map {α β : Type} (f : α → β) (l : List α) (i : ℕ) (d : β) (d0 : α)
    (h : i < l.length) : (l.map f).getD i d = f (l.getD i d0) := by
  induction l generalizing i with
  | nil => simp at h
  | cons x xs ih =>
      cases i with
      | zero => rfl
      | succ n =>
          simp only [List.map_cons, List.getD_cons_succ]
          exact ih n (by simpa using h)

theorem getD_mem {α : Type} (l : List α) (i : ℕ) (d : α) (h : i < l.length) :
    l.getD i d ∈ l := by
  induction l generalizing i with
  | nil => simp at h
  | cons x xs ih =>
      cases i with
      | zero => simp [List.getD_cons_zero]
      | succ n =>
          simp only [List.getD_cons_succ]
          exact List.mem_cons_of_mem _ (ih n (by simpa using h))

theorem fe_rows_length (t : Table) : (feature_engineering t).rows.length = t.rows.length := by
  simp [feature_engineering]

theorem fe_cell_li (t : Table) (i : ℕ) (hi : i < t.rows.length) :
    ((feature_engineering t).rows.getD i dRow) "liquidity_imbalance" =
      fillVal (ratioVal ((t.rows.getD i dRow) "bid_size") ((t.rows.getD i dRow) "ask_size")) := by
  rw [show (feature_engineering t).rows =
      t.rows.map (fun r => fillRow (urgRow (spreadRow (miRow (liRow r))))) from rfl,
    getD_map _ _ i dRow dRow hi]
  simp [fillRow, urgRow, spreadRow, miRow, liRow, ratioVal]

theorem add_comm_val (a b : Val) : Val.add a b = Val.add b a := by
  cases a <;> cases b <;> simp [Val.add, add_comm]

theorem fe_cell_mi (t : Table) (i : ℕ) (hi : i < t.rows.length) :
    ((feature_engineering t).rows.getD i dRow) "matched_imbalance" =
      fillVal (ratioVal ((t.rows.getD i dRow) "imbalance_size")
        ((t.rows.getD i dRow) "matched_size")) := by
  rw [show ratioVal ((t.rows.getD i dRow) "imbalance_size") ((t.rows.getD i dRow) "matched_size")
      = Val.div (Val.sub ((t.rows.getD i dRow) "imbalance_size")
          ((t.rows.getD i dRow) "matched_size"))
        (Val.add ((t.rows.getD i dRow) "matched_size")
          ((t.rows.getD i dRow) "imbalance_size")) from by
    rw [ratioVal, add_comm_val]]
  rw [show (feature_engineering t).rows =
      t.rows.map (fun r => fillRow (urgRow (spreadRow (miRow (liRow r))))) from rfl,
    getD_map _ _ i dRow dRow hi]
  simp [fillRow, urgRow, spreadRow, miRow, liRow, ratioVal]

theorem fe_cell_spread (t : Table) (i : ℕ) (hi : i < t.rows.length) :
    ((feature_engineering t).rows.getD i dRow) "price_spread" =
      fillVal (Val.sub ((t.rows.getD i dRow) "ask_price") ((t.rows.getD i dRow) "bid_price")) := by
  rw [show (feature_engineering t).rows =
      t.rows.map (fun r => fillRow (urgRow (spreadRow (miRow (liRow r))))) from rfl,
    getD_map _ _ i dRow dRow hi]
  simp [fillRow, urgRow, spreadRow, miRow, liRow]

theorem fe_cell_urg (t : Table) (i : ℕ) (hi : i < t.rows.length) :
    ((feature_engineering t).rows.getD i dRow) "market_urgency" =
      fillVal (Val.mul
        (Val.sub ((t.rows.getD i dRow) "ask_price") ((t.rows.getD i dRow) "bid_price"))
        (ratioVal ((t.rows.getD i dRow) "bid_size") ((t.rows.getD i dRow) "ask_size"))) := by
  rw [show (feature_engineering t).rows =
      t.rows.map (fun r => fillRow (urgRow (spreadRow (miRow (liRow r))))) from rfl,
    getD_map _ _ i dRow dRow hi]
  simp [fillRow, urgRow, spreadRow, miRow, liRow, ratioVal]

theorem fe_cell_other (t : Table) (i : ℕ) (hi : i < t.rows.length) (c : String)
    (h1 : c ≠ "liquidity_imbalance") (h2 : c ≠ "matched_imbalance")
    (h3 : c ≠ "price_spread") (h4 : c ≠ "market_urgency") :
    ((feature_engineering t).rows.getD i dRow) c = fillVal ((t.rows.getD i dRow) c) := by
  rw [show (feature_engineering t).rows =
      t.rows.map (fun r => fillRow (urgRow (spreadRow (miRow (liRow r))))) from rfl,
    getD_map _ _ i dRow dRow hi]
  simp [fillRow, urgRow, spreadRow, miRow, liRow, h1, h2, h3, h4]

/-- A one-row table whose size columns are of opposite sign: the denominator
`bid_size + ask_size` is zero while the numerator is not. -/
def tC1 : Table :=
  { cols := ["bid_size", "ask_size"],
    rows := [fun c => if c = "bid_size" then Val.num 1 else
      if c = "ask_size" then Val.num (-1) else Val.nan] }

/-- C1 counterexample: on `tC1` the row has `bid_size + ask_size = 0`, yet the
`liquidity_imbalance` cell produced by `feature_engineering` is `+inf`, not `0`
(`2/0 = inf` under IEEE division, and `fillna(0)` replaces only `NaN`). -/
theorem C1_counterexample :
    Val.add ((tC1.rows.getD 0 dRow) "bid_size") ((tC1.rows.getD 0 dRow) "ask_size")
        = Val.num 0 ∧
      ((feature_engineering tC1).rows.getD 0 dRow) "liquidity_imbalance" = Val.inf ∧
      ((feature_engineering tC1).rows.getD 0 dRow) "liquidity_imbalance" ≠ Val.num 0 := by
  have hrow : tC1.rows.getD 0 dRow = (fun c => if c = "bid_size" then Val.num 1 else
      if c = "ask_size" then Val.num (-1) else Val.nan) := rfl
  have hcell : ((feature_engineering tC1).rows.getD 0 dRow) "liquidity_imbalance" = Val.inf := by
    rw [fe_cell_li tC1 0 (by simp [tC1]), hrow]
    simp [String.reduceEq, ratioVal, Val.sub, Val.neg, Val.add, Val.div, fillVal]
  refine ⟨?_, hcell, by rw [hcell]; simp⟩
  rw [hrow]
  simp [String.reduceEq, Val.add]

theorem ratio_fill_of_ne (b a : ℚ) (h : b + a ≠ 0) :
    fillVal (ratioVal (Val.num b) (Val.num a)) = Val.num ((b - a) / (b + a)) := by
  simp only [ratioVal, Val.sub, Val.neg, Val.add, Val.div]
  rw [if_neg h]
  simp [fillVal, sub_eq_add_neg]

theorem ratio_fill_of_zero_eq (b a : ℚ) (h : b + a = 0) (he : b = a) :
    fillVal (ratioVal (Val.num b) (Val.num a)) = Val.num 0 := by
  have hb : b = 0 := by linarith
  have ha : a = 0 := by linarith
  subst hb; subst ha
  simp [ratioVal, Val.sub, Val.neg, Val.add, Val.div, fillVal]

theorem ratio_fill_of_zero_ne (b a : ℚ) (h : b + a = 0) (he : b ≠ a) :
    fillVal (ratioVal (Val.num b) (Val.num a)) = Val.inf ∨
      fillVal (ratioVal (Val.num b) (Val.num a)) = Val.neginf := by
  have hne : b + -a ≠ 0 := by
    intro hc
    exact he (by linarith)
  simp only [ratioVal, Val.sub, Val.neg, Val.add, Val.div, if_pos h, if_neg hne]
  by_cases hlt : a < b
  · left
    simp [hlt, fillVal]
  · right
    simp [hlt, fillVal]

/-- C1 amended: for any row whose four size cells hold finite values, each
imbalance ratio equals the exact quotient when its denominator is nonzero; when
the denominator is zero the cell is `0` exactly when the two sizes are equal
(which is always the case for the nonnegative volumes of the data model), and
is `±inf` otherwise. -/
theorem C1_amended (t : Table) (i : ℕ) (hi : i < t.rows.length) (b a im ms : ℚ)
    (hb : (t.rows.getD i dRow) "bid_size" = Val.num b)
    (ha : (t.rows.getD i dRow) "ask_size" = Val.num a)
    (him : (t.rows.getD i dRow) "imbalance_size" = Val.num im)
    (hms : (t.rows.getD i dRow) "matched_size" = Val.num ms) :
    (b + a ≠ 0 →
      ((feature_engineering t).rows.getD i dRow) "liquidity_imbalance"
        = Val.num ((b - a) / (b + a))) ∧
    (b + a = 0 → b = a →
      ((feature_engineering t).rows.getD i dRow) "liquidity_imbalance" = Val.num 0) ∧
    (b + a = 0 → b ≠ a →
      ((feature_engineering t).rows.getD i dRow) "liquidity_imbalance" = Val.inf ∨
      ((feature_engineering t).rows.getD i dRow) "liquidity_imbalance" = Val.neginf) ∧
    (im + ms ≠ 0 →
      ((feature_engineering t).rows.getD i dRow) "matched_imbalance"
        = Val.num ((im - ms) / (im + ms))) ∧
    (im + ms = 0 → im = ms →
      ((feature_engineering t).rows.getD i dRow) "matched_imbalance" = Val.num 0) ∧
    (im + ms = 0 → im ≠ ms →
      ((feature_engineering t).rows.getD i dRow) "matched_imbalance" = Val.inf ∨
      ((feature_engineering t).rows.getD i dRow) "matched_imbalance" = Val.neginf) := by
  rw [fe_cell_li t i hi, fe_cell_mi t i hi, hb, ha, him, hms]
  exact ⟨ratio_fill_of_ne b a, ratio_fill_of_zero_eq b a, ratio_fill_of_zero_ne b a,
    ratio_fill_of_ne im ms, ratio_fill_of_zero_eq im ms, ratio_fill_of_zero_ne im ms⟩

/-- A concrete one-row table with all four size columns finite. -/
def tW1 : Table :=
  { cols := ["bid_size", "ask_size", "imbalance_size", "matched_size"],
    rows := [fun c => if c = "bid_size" then Val.num 3 else
      if c = "ask_size" then Val.num 1 else
      if c = "imbalance_size" then Val.num 5 else
      if c = "matched_size" then Val.num 5 else Val.nan] }

/-- Witness for `C1_amended` at a concrete input. -/
theorem C1_witness :
    ((feature_engineering tW1).rows.getD 0 dRow) "liquidity_imbalance"
        = Val.num ((3 - 1) / (3 + 1)) ∧
      ((feature_engineering tW1).rows.getD 0 dRow) "matched_imbalance"
        = Val.num ((5 - 5) / (5 + 5)) := by
  have h := C1_amended tW1 0 (by simp [tW1]) 3 1 5 5
    (by simp [tW1, String.reduceEq]) (by simp [tW1, String.reduceEq])
    (by simp [tW1, String.reduceEq]) (by simp [tW1, String.reduceEq])
  exact ⟨h.1 (by norm_num), h.2.2.2.1 (by norm_num)⟩

/-- `true` iff the cell is not a signed infinity (finite or `nan`). -/
def notInfinite (v : Val) : Bool := v != Val.inf && v != Val.neginf

/-- `true` unless the two size cells are finite values of opposite sign adding
to zero (the configuration that makes the imbalance ratio `±inf`). -/
def okSizes : Val → Val → Bool
  | Val.num b, Val.num a => if b + a = 0 then decide (b = a) else true
  | _, _ => true

/-- Rows on which `market_urgency` stays consistent with its factors: size
cells not in the `±inf`-producing configuration, price cells not infinite. -/
def urgencyRowOK (r : Row) : Bool :=
  okSizes (r "bid_size") (r "ask_size") &&
    notInfinite (r "bid_price") && notInfinite (r "ask_price")

theorem ratio_not_inf (b a : Val) (h : okSizes b a = true) :
    notInfinite (ratioVal b a) = true := by
  cases b with
  | num bq =>
      cases a with
      | num aq =>
          by_cases hz : bq + aq = 0
          · have he : bq = aq := by simpa [okSizes, hz] using h
            have hb0 : bq = 0 := by linarith
            have ha0 : aq = 0 := by linarith
            simp [ratioVal, Val.sub, Val.neg, Val.add, Val.div, hb0, ha0, notInfinite]
          · simp [ratioVal, Val.sub, Val.neg, Val.add, Val.div, hz, notInfinite]
      | nan => simp [ratioVal, Val.sub, Val.neg, Val.add, Val.div, notInfinite]
      | inf => simp [ratioVal, Val.sub, Val.neg, Val.add, Val.div, notInfinite]
      | neginf => simp [ratioVal, Val.sub, Val.neg, Val.add, Val.div, notInfinite]
  | nan => cases a <;> simp [ratioVal, Val.sub, Val.neg, Val.add, Val.div, notInfinite]
  | inf => cases a <;> simp [ratioVal, Val.sub, Val.neg, Val.add, Val.div, notInfinite]
  | neginf => cases a <;> simp [ratioVal, Val.sub, Val.neg, Val.add, Val.div, notInfinite]

theorem sub_not_inf (x y : Val) (hx : notInfinite x = true) (hy : notInfinite y = true) :
    notInfinite (Val.sub x y) = true := by
  cases x <;> cases y <;> simp_all [Val.sub, Val.neg, Val.add, notInfinite]

theorem fill_mul (s l : Val) (hs : notInfinite s = true) (hl : notInfinite l = true) :
    fillVal (Val.mul s l) = Val.mul (fillVal s) (fillVal l) := by
  cases s <;> cases l <;> simp_all [Val.mul, fillVal, notInfinite]

/-- A row with zero spread and sizes of opposite sign: `liquidity_imbalance`
ends up `+inf`, `market_urgency` is `0 * inf = nan`, replaced by `0`. -/
def tC7 : Table :=
  { cols := ["bid_size", "ask_size", "bid_price", "ask_price"],
    rows := [fun c => if c = "bid_size" then Val.num 1 else
      if c = "ask_size" then Val.num (-1) else
      if c = "bid_price" then Val.num 2 else
      if c = "ask_price" then Val.num 2 else Val.nan] }

/-- C7 counterexample: after `feature_engineering` of `tC7` the row has
`market_urgency = 0` but `price_spread * liquidity_imbalance = 0 * inf = nan`,
so the claimed identity fails on that row. -/
theorem C7_counterexample :
    ((feature_engineering tC7).rows.getD 0 dRow) "market_urgency" = Val.num 0 ∧
      Val.mul (((feature_engineering tC7).rows.getD 0 dRow) "price_spread")
        (((feature_engineering tC7).rows.getD 0 dRow) "liquidity_imbalance") = Val.nan ∧
      ((feature_engineering tC7).rows.getD 0 dRow) "market_urgency" ≠
        Val.mul (((feature_engineering tC7).rows.getD 0 dRow) "price_spread")
          (((feature_engineering tC7).rows.getD 0 dRow) "liquidity_imbalance") := by
  have hrow : tC7.rows.getD 0 dRow = (fun c => if c = "bid_size" then Val.num 1 else
      if c = "ask_size" then Val.num (-1) else
      if c = "bid_price" then Val.num 2 else
      if c = "ask_price" then Val.num 2 else Val.nan) := rfl
  have hin : (0 : ℕ) < tC7.rows.length := by simp [tC7]
  have hli : ((feature_engineering tC7).rows.getD 0 dRow) "liquidity_imbalance" = Val.inf := by
    rw [fe_cell_li tC7 0 hin, hrow]
    simp [String.reduceEq, ratioVal, Val.sub, Val.neg, Val.add, Val.div, fillVal]
  have hsp : ((feature_engineering tC7).rows.getD 0 dRow) "price_spread" = Val.num 0 := by
    rw [fe_cell_spread tC7 0 hin, hrow]
    simp [String.reduceEq, Val.sub, Val.neg, Val.add, fillVal]
  have hurg : ((feature_engineering tC7).rows.getD 0 dRow) "market_urgency" = Val.num 0 := by
    rw [fe_cell_urg tC7 0 hin, hrow]
    simp [String.reduceEq, ratioVal, Val.sub, Val.neg, Val.add, Val.div, Val.mul, fillVal]
  have hmul : Val.mul (((feature_engineering tC7).rows.getD 0 dRow) "price_spread")
      (((feature_engineering tC7).rows.getD 0 dRow) "liquidity_imbalance") = Val.nan := by
    rw [hsp, hli]
    simp [Val.mul]
  exact ⟨hurg, hmul, by rw [hurg, hmul]; simp⟩

/-- C7 amended: `market_urgency = price_spread * liquidity_imbalance` holds for
every row except those where the ratio resolves to `±inf` (finite sizes of
opposite sign summing to zero) or a price cell is `±inf`; in particular it
holds on all rows with nonnegative sizes and finite-or-missing prices,
including rows where the ratio was `NaN` and was resolved to `0`. -/
theorem C7_amended (t : Table) (i : ℕ) (hi : i < t.rows.length)
    (hok : urgencyRowOK (t.rows.getD i dRow) = true) :
    ((feature_engineering t).rows.getD i dRow) "market_urgency" =
      Val.mul (((feature_engineering t).rows.getD i dRow) "price_spread")
        (((feature_engineering t).rows.getD i dRow) "liquidity_imbalance") := by
  have h1 : okSizes ((t.rows.getD i dRow) "bid_size") ((t.rows.getD i dRow) "ask_size")
      = true := by
    simp only [urgencyRowOK, Bool.and_eq_true] at hok
    exact hok.1.1
  have h2 : notInfinite ((t.rows.getD i dRow) "bid_price") = true := by
    simp only [urgencyRowOK, Bool.and_eq_true] at hok
    exact hok.1.2
  have h3 : notInfinite ((t.rows.getD i dRow) "ask_price") = true := by
    simp only [urgencyRowOK, Bool.and_eq_true] at hok
    exact hok.2
  rw [fe_cell_urg t i hi, fe_cell_spread t i hi, fe_cell_li t i hi]
  exact fill_mul _ _ (sub_not_inf _ _ h3 h2) (ratio_not_inf _ _ h1)

/-- A concrete row with positive sizes and finite prices. -/
def tW7 : Table :=
  { cols := ["bid_size", "ask_size", "bid_price", "ask_price"],
    rows := [fun c => if c = "bid_size" then Val.num 3 else
      if c = "ask_size" then Val.num 1 else
      if c = "bid_price" then Val.num 10 else
      if c = "ask_price" then Val.num 12 else Val.nan] }

/-- Witness for `C7_amended` at a concrete input. -/
theorem C7_witness :
    ((feature_engineering tW7).rows.getD 0 dRow) "market_urgency" =
      Val.mul (((feature_engineering tW7).rows.getD 0 dRow) "price_spread")
        (((feature_engineering tW7).rows.getD 0 dRow) "liquidity_imbalance") :=
  C7_amended tW7 0 (by simp [tW7])
    (by simp [tW7, urgencyRowOK, okSizes, notInfinite, String.reduceEq]; norm_num)

theorem fillVal_ne_nan (v : Val) : fillVal v ≠ Val.nan := by
  unfold fillVal
  split <;> simp_all

theorem fillVal_of_ne_nan (v : Val) (h : v ≠ Val.nan) : fillVal v = v := by
  simp [fillVal, h]

/-- The four columns written by `feature_engineering`. -/
def derivedCols : List String :=
  ["liquidity_imbalance", "matched_imbalance", "price_spread", "market_urgency"]

/-- The six base columns read by `feature_engineering`. -/
def baseCols : List String :=
  ["bid_size", "ask_size", "imbalance_size", "matched_size", "bid_price", "ask_price"]

theorem fe_base_cell (t : Table) (i : ℕ) (hi : i < t.rows.length) (c : String)
    (h1 : c ≠ "liquidity_imbalance") (h2 : c ≠ "matched_imbalance")
    (h3 : c ≠ "price_spread") (h4 : c ≠ "market_urgency")
    (hnn : (t.rows.getD i dRow) c ≠ Val.nan) :
    ((feature_engineering t).rows.getD i dRow) c = (t.rows.getD i dRow) c := by
  rw [fe_cell_other t i hi c h1 h2 h3 h4]
  exact fillVal_of_ne_nan _ hnn

/-- C9 confirmed: `feature_engineering` leaves no `NaN` anywhere in the
returned table, and a pre-existing missing entry of any column other than the
four derived ones (for example `far_price` or `bid_size`) appears as `0`. -/
theorem C9_confirmed (t : Table) (i : ℕ) (hi : i < t.rows.length) (c : String) :
    (∀ c2 : String, ((feature_engineering t).rows.getD i dRow) c2 ≠ Val.nan) ∧
      (c ∉ derivedCols → (t.rows.getD i dRow) c = Val.nan →
        ((feature_engineering t).rows.getD i dRow) c = Val.num 0) := by
  constructor
  · intro c2
    rw [show (feature_engineering t).rows =
        t.rows.map (fun r => fillRow (urgRow (spreadRow (miRow (liRow r))))) from rfl,
      getD_map _ _ i dRow dRow hi]
    exact fillVal_ne_nan _
  · intro hno hnan
    simp only [derivedCols, List.mem_cons, List.not_mem_nil, or_false, not_or] at hno
    obtain ⟨h1, h2, h3, h4⟩ := hno
    rw [fe_cell_other t i hi c h1 h2 h3 h4, hnan]
    simp [fillVal]

/-- A one-row table with a missing `far_price` and a present `bid_size`. -/
def tW9 : Table :=
  { cols := ["far_price", "bid_size"],
    rows := [fun c => if c = "bid_size" then Val.num 1 else Val.nan] }

/-- Witness for `C9_confirmed` at a concrete input. -/
theorem C9_witness :
    ((feature_engineering tW9).rows.getD 0 dRow) "far_price" = Val.num 0 := by
  refine (C9_confirmed tW9 0 (by simp [tW9]) "far_price").2 (by decide) ?_
  simp [tW9, String.reduceEq]

/-- A one-row table with a missing `bid_size`: the first engineering pass turns
the missing `bid_size` into `0`, so a second pass recomputes the ratio from a
different base value. -/
def tC8 : Table :=
  { cols := ["bid_size", "ask_size"],
    rows := [fun c => if c = "ask_size" then Val.num 5 else Val.nan] }

/-- C8 counterexample: `liquidity_imbalance` is `0` after one application of
`feature_engineering` to `tC8` but `-1` after two, because the first pass's
`fillna(0)` rewrote the missing `bid_size` to `0`. -/
theorem C8_counterexample :
    ((feature_engineering tC8).rows.getD 0 dRow) "liquidity_imbalance" = Val.num 0 ∧
      ((feature_engineering (feature_engineering tC8)).rows.getD 0 dRow) "liquidity_imbalance"
        = Val.num (-1) ∧
      ((feature_engineering (feature_engineering tC8)).rows.getD 0 dRow) "liquidity_imbalance"
        ≠ ((feature_engineering tC8).rows.getD 0 dRow) "liquidity_imbalance" := by
  have hin : (0 : ℕ) < tC8.rows.length := by simp [tC8]
  have hin2 : (0 : ℕ) < (feature_engineering tC8).rows.length := by
    rw [fe_rows_length]
    exact hin
  have h1 : ((feature_engineering tC8).rows.getD 0 dRow) "liquidity_imbalance" = Val.num 0 := by
    rw [fe_cell_li tC8 0 hin]
    simp [tC8, String.reduceEq, ratioVal, Val.sub, Val.neg, Val.add, Val.div, fillVal]
  have hbid : ((feature_engineering tC8).rows.getD 0 dRow) "bid_size" = Val.num 0 := by
    rw [fe_cell_other tC8 0 hin "bid_size" (by decide) (by decide) (by decide) (by decide)]
    simp [tC8, String.reduceEq, fillVal]
  have hask : ((feature_engineering tC8).rows.getD 0 dRow) "ask_size" = Val.num 5 := by
    rw [fe_cell_other tC8 0 hin "ask_size" (by decide) (by decide) (by decide) (by decide)]
    simp [tC8, String.reduceEq, fillVal]
  have h2 : ((feature_engineering (feature_engineering tC8)).rows.getD 0 dRow)
      "liquidity_imbalance" = Val.num (-1) := by
    rw [fe_cell_li (feature_engineering tC8) 0 hin2, hbid, hask]
    rw [show ratioVal (Val.num 0) (Val.num 5) = Val.num (-1) from by
      norm_num [ratioVal, Val.sub, Val.neg, Val.add, Val.div]]
    simp [fillVal]
  refine ⟨h1, h2, ?_⟩
  rw [h1, h2]
  simp

/-- `true` iff none of the six base cells of the row is missing. -/
def basesPresent (r : Row) : Bool := baseCols.all (fun c => r c != Val.nan)

/-- C8 amended: applying `feature_engineering` twice yields the same values in
the four derived columns as applying it once, provided the six base columns of
the row carry no missing value (the first pass's frame-wide `fillna(0)`
otherwise rewrites a missing base cell to `0`, changing the recomputation). -/
theorem C8_amended (t : Table) (i : ℕ) (hi : i < t.rows.length)
    (hb : basesPresent (t.rows.getD i dRow) = true) :
    ∀ c ∈ derivedCols,
      ((feature_engineering (feature_engineering t)).rows.getD i dRow) c =
        ((feature_engineering t).rows.getD i dRow) c := by
  have hi2 : i < (feature_engineering t).rows.length := by
    rw [fe_rows_length]
    exact hi
  simp only [basesPresent, baseCols, List.all_cons, List.all_nil, Bool.and_eq_true,
    bne_iff_ne, ne_eq, and_true] at hb
  obtain ⟨hbs, has, his, hms, hbp, hap⟩ := hb
  have ebs := fe_base_cell t i hi "bid_size" (by decide) (by decide) (by decide) (by decide) hbs
  have eas := fe_base_cell t i hi "ask_size" (by decide) (by decide) (by decide) (by decide) has
  have eis := fe_base_cell t i hi "imbalance_size"
    (by decide) (by decide) (by decide) (by decide) his
  have ems := fe_base_cell t i hi "matched_size"
    (by decide) (by decide) (by decide) (by decide) hms
  have ebp := fe_base_cell t i hi "bid_price" (by decide) (by decide) (by decide) (by decide) hbp
  have eap := fe_base_cell t i hi "ask_price" (by decide) (by decide) (by decide) (by decide) hap
  intro c hc
  simp only [derivedCols, List.mem_cons, List.not_mem_nil, or_false] at hc
  rcases hc with rfl | rfl | rfl | rfl
  · rw [fe_cell_li (feature_engineering t) i hi2, ebs, eas, fe_cell_li t i hi]
  · rw [fe_cell_mi (feature_engineering t) i hi2, eis, ems, fe_cell_mi t i hi]
  · rw [fe_cell_spread (feature_engineering t) i hi2, eap, ebp, fe_cell_spread t i hi]
  · rw [fe_cell_urg (feature_engineering t) i hi2, ebs, eas, eap, ebp, fe_cell_urg t i hi]

/-- A concrete one-row table with all six base cells present. -/
def tW8 : Table :=
  { cols := baseCols,
    rows := [fun c => if c = "bid_size" then Val.num 3 else
      if c = "ask_size" then Val.num 1 else
      if c = "imbalance_size" then Val.num 4 else
      if c = "matched_size" then Val.num 6 else
      if c = "bid_price" then Val.num 10 else
      if c = "ask_price" then Val.num 12 else Val.nan] }

/-- Witness for `C8_amended` at a concrete input. -/
theorem C8_witness :
    ((feature_engineering (feature_engineering tW8)).rows.getD 0 dRow) "liquidity_imbalance" =
      ((feature_engineering tW8).rows.getD 0 dRow) "liquidity_imbalance" :=
  C8_amended tW8 0 (by simp [tW8])
    (by simp [tW8, basesPresent, baseCols, String.reduceEq]) "liquidity_imbalance" (by decide)

/-- `split_data` (`data_processing.py`, lines 111-127):
`train = data[data['date_id'] < n]`, `test = data[data['date_id'] >= n]`. -/
def split_data (data : Table) (n : ℚ) : Table × Table :=
  ({ cols := data.cols, rows := data.rows.filter (fun r => Val.lt (r "date_id") (Val.num n)) },
   { cols := data.cols, rows := data.rows.filter (fun r => Val.le (Val.num n) (r "date_id")) })

/-- A one-row table whose `date_id` is missing. -/
def tC4 : Table := { cols := ["date_id"], rows := [fun _ => Val.nan] }

/-- C4 counterexample: a row with missing `date_id` compares false against the
threshold on both sides, so it lands in neither partition and the two row
counts do not sum to the input's row count. -/
theorem C4_counterexample :
    (split_data tC4 3).1.rows.length + (split_data tC4 3).2.rows.length = 0 ∧
      tC4.rows.length = 1 := by
  constructor
  · simp [split_data, tC4, Val.lt, Val.le]
  · rfl

theorem ge_eq_not_lt (x : Val) (n : ℚ) (hx : x ≠ Val.nan) :
    Val.le (Val.num n) x = !(Val.lt x (Val.num n)) := by
  cases x with
  | num q =>
      show decide (n ≤ q) = !decide (q < n)
      rw [← decide_not]
      exact decide_eq_decide.mpr not_lt.symm
  | nan => exact absurd rfl hx
  | inf => rfl
  | neginf => rfl

/-- C4 amended: provided no `date_id` entry is missing, `split_data` returns
the in-order rows with `date_id < n` and the in-order rows with `date_id >= n`;
the two parts are disjoint and exhaustive, so the row counts sum to the
input's.  A row with missing `date_id` falls out of both parts. -/
theorem C4_amended (t : Table) (n : ℚ) (hk : ∀ r ∈ t.rows, r "date_id" ≠ Val.nan) :
    (split_data t n).1.rows = t.rows.filter (fun r => Val.lt (r "date_id") (Val.num n)) ∧
      (split_data t n).2.rows = t.rows.filter (fun r => !(Val.lt (r "date_id") (Val.num n))) ∧
      (split_data t n).1.rows.length + (split_data t n).2.rows.length = t.rows.length ∧
      ∀ r ∈ t.rows,
        (r ∈ (split_data t n).1.rows ∧ r ∉ (split_data t n).2.rows) ∨
        (r ∉ (split_data t n).1.rows ∧ r ∈ (split_data t n).2.rows) := by
  have hcong : (split_data t n).2.rows
      = t.rows.filter (fun r => !(Val.lt (r "date_id") (Val.num n))) := by
    show t.rows.filter (fun r => Val.le (Val.num n) (r "date_id"))
      = t.rows.filter (fun r => !(Val.lt (r "date_id") (Val.num n)))
    refine List.filter_congr ?_
    intro r hr
    exact ge_eq_not_lt _ n (hk r hr)
  refine ⟨rfl, hcong, ?_, ?_⟩
  · rw [hcong]
    exact (List.length_eq_length_filter_add
      (fun (r : Row) => Val.lt (r "date_id") (Val.num n))).symm
  · intro r hr
    by_cases hp : Val.lt (r "date_id") (Val.num n) = true
    · left
      constructor
      · exact List.mem_filter.mpr ⟨hr, hp⟩
      · rw [hcong]
        intro hmem
        have := (List.mem_filter.mp hmem).2
        simp [hp] at this
    · right
      constructor
      · intro hmem
        exact hp (List.mem_filter.mp hmem).2
      · rw [hcong]
        refine List.mem_filter.mpr ⟨hr, ?_⟩
        simp [Bool.not_eq_true] at hp
        simp [hp]

/-- A row holding just a `date_id`. -/
def dateRow (k : ℚ) : Row := fun c => if c = "date_id" then Val.num k else Val.nan

/-- The spec's example table with `date_id` values 1..5. -/
def tW4 : Table :=
  { cols := ["date_id"],
    rows := [dateRow 1, dateRow 2, dateRow 3, dateRow 4, dateRow 5] }

/-- Witness for `C4_amended` at the spec's example input. -/
theorem C4_witness :
    (split_data tW4 3).1.rows.length + (split_data tW4 3).2.rows.length = tW4.rows.length :=
  (C4_amended tW4 3 (by simp [tW4, dateRow, String.reduceEq])).2.2.1

/-- The non-missing values of column `c` (pandas mean/std/median skip `NaN`). -/
def presentVals (t : Table) (c : String) : List Val :=
  (t.rows.map (fun r => r c)).filter (fun v => v != Val.nan)

/-- Left-fold sum, as numpy accumulates. -/
def valSum (l : List Val) : Val := l.foldl Val.add (Val.num 0)

/-- `Series.mean()`: sum of the non-missing values over their count
(`nan` for an empty list, since `0/0 = nan`). -/
def meanOf (l : List Val) : Val := Val.div (valSum l) (Val.num (l.length : ℚ))

/-- The square of `Series.std()` (sample variance, `ddof=1`): sum of squared
deviations over `n - 1`.  For `n = 1` this is `0/0 = nan` and for `n = 0` it is
`nan`, exactly as pandas returns `NaN` there; if any value is `±inf` the mean
is non-finite and a deviation is `inf - inf = nan`, so the result is `nan` as
in numpy.  The variance is kept instead of the irrational standard deviation;
`keepB` below compares against `sigma * sqrt(variance)` exactly. -/
def varOf (l : List Val) : Val :=
  if l.length = 0 then Val.nan
  else Val.div
    (valSum (l.map (fun x => Val.mul (Val.sub x (meanOf l)) (Val.sub x (meanOf l)))))
    (Val.num ((l.length : ℚ) - 1))

/-- `df_copy[column].mean()`. -/
def colMean (t : Table) (c : String) : Val := meanOf (presentVals t c)

/-- The square of `df_copy[column].std()`. -/
def colVar (t : Table) (c : String) : Val := varOf (presentVals t c)

/-- Decides `tq ≤ sg * sqrt tv` over `ℚ` (for `tv ≥ 0`): for `sg ≥ 0` the
bound is nonnegative, so the inequality holds iff `tq ≤ 0` or `tq^2 ≤ sg^2*tv`;
for `sg < 0` it holds iff `tq ≤ 0` and `tq^2 ≥ sg^2*tv`.  `tLeB_iff` proves
this characterization against `Real.sqrt`. -/
def tLeB (tq sg tv : ℚ) : Bool :=
  if 0 ≤ sg then decide (tq ≤ 0) || decide (tq ^ 2 ≤ sg ^ 2 * tv)
  else decide (tq ≤ 0) && decide (sg ^ 2 * tv ≤ tq ^ 2)

/-- The row-retention test
`(df_copy[column] >= lower_bound) & (df_copy[column] <= upper_bound)` with
`lower = mean - sigma*std` and `upper = mean + sigma*std`: both comparisons are
false when the cell,
the mean or the std is `NaN` (so such rows are dropped), and
`lower ≤ x ∧ x ≤ upper` is `mean - x ≤ sg*std ∧ x - mean ≤ sg*std`, decided by
`tLeB` on the variance.  A `±inf` cell fails the finite band as well; a
non-finite mean forces a `NaN` variance (`varOf`), hence `NaN` bounds. -/
def keepB (x mean variance : Val) (sg : ℚ) : Bool :=
  match x, mean, variance with
  | Val.num v, Val.num m, Val.num tv =>
      if tv < 0 then false else tLeB (m - v) sg tv && tLeB (v - m) sg tv
  | _, _, _ => false

/-- One iteration of the loop in `remove_extreme_values`: compute mean/std of
`column` on the current frame and keep the rows inside the band. -/
def revStep (sg : ℚ) (t : Table) (c : String) : Table :=
  { cols := t.cols,
    rows := t.rows.filter (fun r => keepB (r c) (colMean t c) (colVar t c) sg) }

/-- `remove_extreme_values` (`data_processing.py`, lines 69-109): iterates over
the given columns, each time recomputing mean/std on the already-filtered copy
(the `count_variables` list and its commented-out sqrt transform have no
effect and are omitted). -/
def remove_extreme_values (dataframe : Table) (columns : List String) (sigma : ℚ) : Table :=
  columns.foldl (fun acc c => revStep sigma acc c) dataframe

theorem tLeB_iff (tq sg tv : ℚ) (h : 0 ≤ tv) :
    tLeB tq sg tv = true ↔ (tq : ℝ) ≤ (sg : ℝ) * Real.sqrt (tv : ℝ) := by
  have hs : (0 : ℝ) ≤ Real.sqrt (tv : ℝ) := Real.sqrt_nonneg _
  have hs2 : Real.sqrt (tv : ℝ) ^ 2 = (tv : ℝ) := Real.sq_sqrt (by exact_mod_cast h)
  have hss : ((sg : ℝ) * Real.sqrt (tv : ℝ)) ^ 2 = (sg : ℝ) ^ 2 * (tv : ℝ) := by
    rw [mul_pow, hs2]
  by_cases hsg : 0 ≤ sg
  · have hb : (0 : ℝ) ≤ (sg : ℝ) * Real.sqrt (tv : ℝ) :=
      mul_nonneg (by exact_mod_cast hsg) hs
    simp only [tLeB, if_pos hsg, Bool.or_eq_true, decide_eq_true_eq]
    constructor
    · rintro (h0 | h2)
      · exact le_trans (by exact_mod_cast h0) hb
      · have h2r : (tq : ℝ) ^ 2 ≤ ((sg : ℝ) * Real.sqrt (tv : ℝ)) ^ 2 := by
          rw [hss]
          exact_mod_cast h2
        calc (tq : ℝ) ≤ |(tq : ℝ)| := le_abs_self _
          _ = Real.sqrt ((tq : ℝ) ^ 2) := (Real.sqrt_sq_eq_abs _).symm
          _ ≤ Real.sqrt (((sg : ℝ) * Real.sqrt (tv : ℝ)) ^ 2) := Real.sqrt_le_sqrt h2r
          _ = (sg : ℝ) * Real.sqrt (tv : ℝ) := Real.sqrt_sq hb
    · intro hle
      by_cases h0 : tq ≤ 0
      · exact Or.inl h0
      · right
        have h0r : (0 : ℝ) ≤ (tq : ℝ) := by
          have := lt_of_not_le h0
          positivity
        have := pow_le_pow_left₀ h0r hle 2
        rw [hss] at this
        exact_mod_cast this
  · have hsg' : sg < 0 := lt_of_not_le hsg
    have hb : (sg : ℝ) * Real.sqrt (tv : ℝ) ≤ 0 :=
      mul_nonpos_of_nonpos_of_nonneg (by exact_mod_cast le_of_lt hsg') hs
    simp only [tLeB, if_neg hsg, Bool.and_eq_true, decide_eq_true_eq]
    constructor
    · rintro ⟨h0, h2⟩
      have h2r : ((sg : ℝ) * Real.sqrt (tv : ℝ)) ^ 2 ≤ (tq : ℝ) ^ 2 := by
        rw [hss]
        exact_mod_cast h2
      have habs : |(sg : ℝ) * Real.sqrt (tv : ℝ)| ≤ |(tq : ℝ)| := by
        rw [← Real.sqrt_sq_eq_abs, ← Real.sqrt_sq_eq_abs]
        exact Real.sqrt_le_sqrt h2r
      have h0r : (tq : ℝ) ≤ 0 := by exact_mod_cast h0
      rw [abs_of_nonpos hb, abs_of_nonpos h0r] at habs
      linarith
    · intro hle
      have h0 : tq ≤ 0 := by
        have : (tq : ℝ) ≤ 0 := le_trans hle hb
        exact_mod_cast this
      refine ⟨h0, ?_⟩
      have h0r : (tq : ℝ) ≤ 0 := by exact_mod_cast h0
      have hneg : -((sg : ℝ) * Real.sqrt (tv : ℝ)) ≤ -(tq : ℝ) := by linarith
      have hsq := pow_le_pow_left₀ (by linarith : (0 : ℝ) ≤ -((sg : ℝ) * Real.sqrt (tv : ℝ)))
        hneg 2
      rw [neg_sq, neg_sq, hss] at hsq
      exact_mod_cast hsq

/-- C5 confirmed: `remove_extreme_values` processes the columns sequentially
(statistics of each step computed on the table as already reduced by earlier
columns), each step keeps — in their original order — exactly the rows whose
value in the column lies in the closed interval
`[mean - sigma*sqrt(variance), mean + sigma*sqrt(variance)]` (stated over `ℝ`
for the defined-statistics case, i.e. at least two finite values), the column
labels are untouched, and the input table itself is never modified (the Lean
translation is pure; the Python code filters a `df_copy`). -/
theorem C5_confirmed (t : Table) (c : String) (cs : List String) (sg m tv : ℚ)
    (hm : colMean t c = Val.num m) (hv : colVar t c = Val.num tv) (htv : 0 ≤ tv) :
    remove_extreme_values t (c :: cs) sg = remove_extreme_values (revStep sg t c) cs sg ∧
      (revStep sg t c).rows
        = t.rows.filter (fun r => keepB (r c) (colMean t c) (colVar t c) sg) ∧
      (revStep sg t c).cols = t.cols ∧
      ∀ x : Val, keepB x (colMean t c) (colVar t c) sg = true ↔
        ∃ v : ℚ, x = Val.num v ∧
          (m : ℝ) - (sg : ℝ) * Real.sqrt (tv : ℝ) ≤ (v : ℝ) ∧
          (v : ℝ) ≤ (m : ℝ) + (sg : ℝ) * Real.sqrt (tv : ℝ) := by
  refine ⟨rfl, rfl, rfl, ?_⟩
  intro x
  rw [hm, hv]
  cases x with
  | num v =>
      constructor
      · intro hkeep
        simp only [keepB, if_neg (not_lt.mpr htv), Bool.and_eq_true] at hkeep
        obtain ⟨h1, h2⟩ := hkeep
        have h1r := (tLeB_iff (m - v) sg tv htv).mp h1
        have h2r := (tLeB_iff (v - m) sg tv htv).mp h2
        push_cast at h1r h2r
        exact ⟨v, rfl, by linarith, by linarith⟩
      · rintro ⟨v0, hv0, hlo, hhi⟩
        have hvv : v = v0 := by injection hv0
        subst hvv
        simp only [keepB, if_neg (not_lt.mpr htv), Bool.and_eq_true]
        refine ⟨(tLeB_iff (m - v) sg tv htv).mpr ?_, (tLeB_iff (v - m) sg tv htv).mpr ?_⟩
        · push_cast
          linarith
        · push_cast
          linarith
  | nan => simp [keepB]
  | inf => simp [keepB]
  | neginf => simp [keepB]

/-- A row holding a single numeric column `v`. -/
def vRow (k : ℚ) : Row := fun c => if c = "v" then Val.num k else Val.nan

/-- A two-row table with `v` values `0` and `2` (mean `1`, sample variance `2`). -/
def tW5 : Table := { cols := ["v"], rows := [vRow 0, vRow 2] }

/-- Witness for `C5_confirmed` at a concrete input. -/
theorem C5_witness :
    remove_extreme_values tW5 ["v"] 4 = remove_extreme_values (revStep 4 tW5 "v") [] 4 := by
  have hm : colMean tW5 "v" = Val.num 1 := by
    simp [colMean, meanOf, presentVals, valSum, tW5, vRow, String.reduceEq, Val.add, Val.div]
  have hv : colVar tW5 "v" = Val.num 2 := by
    simp [colVar, varOf, presentVals, valSum, meanOf, tW5, vRow, String.reduceEq,
      Val.add, Val.div, Val.sub, Val.neg, Val.mul]
    norm_num
  exact (C5_confirmed tW5 "v" [] 4 1 2 hm hv (by norm_num)).1

theorem keepB_ne_nan (x m v : Val) (sg : ℚ) (h : keepB x m v sg = true) : x ≠ Val.nan := by
  intro hx
  subst hx
  cases m <;> cases v <;> simp [keepB] at h

theorem rev_foldl_mem (cs : List String) (sg : ℚ) (t : Table) (r : Row)
    (h : r ∈ (remove_extreme_values t cs sg).rows) : r ∈ t.rows := by
  induction cs generalizing t with
  | nil => exact h
  | cons c cs ih =>
      have h2 := ih (revStep sg t c) h
      exact List.mem_of_mem_filter h2

/-- C10 confirmed: whatever `sigma` is, a row with a missing value in any of
the listed columns never survives `remove_extreme_values`, because a `NaN`
satisfies neither bound comparison. -/
theorem C10_confirmed (t : Table) (columns : List String) (sg : ℚ) (c : String)
    (hc : c ∈ columns) :
    ∀ r ∈ (remove_extreme_values t columns sg).rows, r c ≠ Val.nan := by
  intro r hr
  obtain ⟨l1, l2, rfl⟩ := List.append_of_mem hc
  rw [remove_extreme_values, List.foldl_append] at hr
  have hr2 : r ∈ (remove_extreme_values
      (revStep sg (remove_extreme_values t l1 sg) c) l2 sg).rows := hr
  have hr3 := rev_foldl_mem l2 sg _ r hr2
  have hkeep := (List.mem_filter.mp hr3).2
  exact keepB_ne_nan _ _ _ _ hkeep

/-- A three-row table over column `v`: two zeros and a missing entry. -/
def tW10 : Table := { cols := ["v"], rows := [vRow 0, vRow 0, fun _ => Val.nan] }

/-- Witness for `C10_confirmed` at a concrete input: the first surviving row of
the filtered table indeed has a non-missing `v`. -/
theorem C10_witness :
    (remove_extreme_values tW10 ["v"] 4).rows.getD 0 dRow "v" ≠ Val.nan := by
  have hm0 : colMean tW10 "v" = Val.num 0 := by
    simp [colMean, meanOf, presentVals, valSum, tW10, vRow, String.reduceEq,
      Val.add, Val.div]
  have hv0 : colVar tW10 "v" = Val.num 0 := by
    simp [colVar, varOf, presentVals, valSum, meanOf, tW10, vRow, String.reduceEq,
      Val.add, Val.div, Val.sub, Val.neg, Val.mul]
    norm_num
  have hlen : (remove_extreme_values tW10 ["v"] 4).rows.length = 2 := by
    show (tW10.rows.filter
      (fun r => keepB (r "v") (colMean tW10 "v") (colVar tW10 "v") 4)).length = 2
    rw [hm0, hv0]
    simp [tW10, vRow, keepB, tLeB, String.reduceEq]
  exact C10_confirmed tW10 ["v"] 4 "v" (by simp)
    ((remove_extreme_values tW10 ["v"] 4).rows.getD 0 dRow)
    (getD_mem _ 0 dRow (by rw [hlen]; norm_num))

/-- The values of column `c`, in row order. -/
def colVals (t : Table) (c : String) : List Val := t.rows.map (fun r => r c)

/-- `data[c] = data[c].fillna(v)`: replace the `NaN` entries of column `c` by
`v` (a `NaN` fill value leaves the column unchanged, as in pandas). -/
def fillColWith (t : Table) (c : String) (v : Val) : Table :=
  { cols := t.cols,
    rows := t.rows.map (fun r c2 => if c2 = c ∧ r c2 = Val.nan then v else r c2) }

/-- `data.columns[data.isnull().any()]`: the labels whose column currently has
at least one missing entry. -/
def colsWithMissing (t : Table) : List String :=
  t.cols.filter (fun c => t.rows.any (fun r => r c == Val.nan))

/-- Insertion into a `Val.le`-sorted list. -/
def insertSorted (v : Val) : List Val → List Val
  | [] => [v]
  | w :: ws => if Val.le v w then v :: w :: ws else w :: insertSorted v ws

/-- Insertion sort by `Val.le` (total on the non-`nan` values it is used on). -/
def sortVals (l : List Val) : List Val := l.foldr insertSorted []

/-- `Series.median()` over an already `NaN`-free list: middle element of the
sorted values, or the IEEE average of the two middle ones; `nan` on an empty
list (pandas' median of an all-missing column). -/
def medianOf (l : List Val) : Val :=
  let s := sortVals l
  if s.length = 0 then Val.nan
  else if s.length % 2 = 1 then s.getD (s.length / 2) Val.nan
  else Val.div (Val.add (s.getD (s.length / 2 - 1) Val.nan) (s.getD (s.length / 2) Val.nan))
    (Val.num 2)

/-- `data[column].median()`. -/
def colMedian (t : Table) (c : String) : Val := medianOf (presentVals t c)

/-- The `remove_missing=False` branch of `data_preprocessing`
(`data_processing.py`, lines 50-59): fill `far_price`/`near_price` with `0`,
then fill each column that still has missing entries with its current median.
These column assignments happen in place on the caller's object. -/
def fillMissing (data : Table) : Table :=
  let t2 := fillColWith (fillColWith data "far_price" (Val.num 0)) "near_price" (Val.num 0)
  (colsWithMissing t2).foldl (fun acc c => fillColWith acc c (colMedian acc c)) t2

/-- `data.dropna()`: keep rows with no missing entry in any column. -/
def dropnaT (data : Table) : Table :=
  { cols := data.cols,
    rows := data.rows.filter (fun r => data.cols.all (fun c => r c != Val.nan)) }

/-- The label of the one-hot encoded categorical column. -/
def flagColName : String := "imbalance_buy_sell_flag"

/-- How a category value appears in a generated dummy-column label, as pandas
renders an `int64` category (`-1`, `0`, `1`).  This is faithful exactly when
the flag column is `int64`: all entries present and integral (see `flagIsInt`)
in integer-formatted source data.  A flag column that ever held `NaN` is
`float64` under `read_csv` and stays so through `dropna`/`fillna`; its labels
then render with a decimal point (`imbalance_flag_-1.0`, medians like `0.5`),
and the rename to `imbalance_flag_neg_1` never fires.  That float-dtype
rendering is not modelled, so theorems about labels carry the `flagIsInt`
hypothesis. -/
def valName : Val → String
  | Val.num q => if q.den = 1 then toString q.num else toString q
  | Val.nan => "nan"
  | Val.inf => "inf"
  | Val.neginf => "-inf"

/-- `pd.get_dummies(..., prefix='imbalance_flag')` label for one category. -/
def flagName (v : Val) : String := "imbalance_flag_" ++ valName v

/-- The distinct non-missing values of `imbalance_buy_sell_flag`, sorted — the
categories `get_dummies` generates columns for, in order. -/
def flagVals (t : Table) : List Val := sortVals (presentVals t flagColName).dedup

/-- `pd.get_dummies(data, columns=['imbalance_buy_sell_flag'],
prefix='imbalance_flag')`: drop the flag column, append one indicator column
per observed category (duplicate labels between existing columns and the
generated ones are outside the model). -/
def encodeFlag (t : Table) : Table :=
  { cols := t.cols.filter (fun c => c != flagColName) ++ (flagVals t).map flagName,
    rows := t.rows.map (fun r c =>
      match (flagVals t).find? (fun v => flagName v == c) with
      | some v => if r flagColName = v then Val.num 1 else Val.num 0
      | none => r c) }

/-- `data.rename(columns={o: n2})`: a no-op when `o` is absent. -/
def renameCol (t : Table) (o n2 : String) : Table :=
  if o ∈ t.cols then
    { cols := t.cols.map (fun c => if c = o then n2 else c),
      rows := t.rows.map (fun r c => if c = n2 then r o else r c) }
  else t

/-- The missing-value stage of `data_preprocessing`: row removal or
imputation, before the one-hot encoding. -/
def preEncode (data : Table) (remove_missing : Bool) : Table :=
  if remove_missing then dropnaT data else fillMissing data

/-- `data_preprocessing` (`data_processing.py`, lines 29-69).  The first
component is the returned table.  The second component makes the Python-level
mutation explicit: it is the state of the caller's `data` object after the
call — untouched in the `remove_missing=True` branch (`dropna` and
`get_dummies` rebind the local name), but overwritten column-by-column by the
in-place fills of the `False` branch. -/
def data_preprocessing (data : Table) (remove_missing : Bool) : Table × Table :=
  (renameCol (encodeFlag (preEncode data remove_missing))
    "imbalance_flag_-1" "imbalance_flag_neg_1",
   if remove_missing then data else fillMissing data)

/-- A one-row table whose `far_price` is missing. -/
def tC6 : Table :=
  { cols := ["far_price", "near_price", "imbalance_buy_sell_flag"],
    rows := [fun c => if c = "far_price" then Val.nan else Val.num 1] }

/-- C6 counterexample: with `remove_missing=False`, `data_preprocessing`
mutates the caller's table — the caller's `far_price` entry is `0`, not `NaN`,
after the call. -/
theorem C6_counterexample : (data_preprocessing tC6 false).2 ≠ tC6 := by
  intro h
  have h2 := congrArg (fun tb => (tb.rows.getD 0 dRow) "far_price") h
  have hL : ((data_preprocessing tC6 false).2.rows.getD 0 dRow) "far_price" = Val.num 0 := by
    decide
  have hR : (tC6.rows.getD 0 dRow) "far_price" = Val.nan := by decide
  rw [show (fun tb => (tb.rows.getD 0 dRow) "far_price") (data_preprocessing tC6 false).2
      = ((data_preprocessing tC6 false).2.rows.getD 0 dRow) "far_price" from rfl] at h2
  rw [hL] at h2
  rw [show (fun tb => (tb.rows.getD 0 dRow) "far_price") tC6
      = (tC6.rows.getD 0 dRow) "far_price" from rfl] at h2
  rw [hR] at h2
  exact absurd h2 (by decide)

/-- C6 amended: `feature_engineering` and `remove_extreme_values` work on
copies (their Lean translations are pure functions of the input), and
`data_preprocessing` with `remove_missing=True` leaves the caller's table
unchanged; but with `remove_missing=False` it mutates the caller's table in
place (the imputation writes through the received reference), so the claim
fails for that branch. -/
theorem C6_amended (data : Table) : (data_preprocessing data true).2 = data := rfl

/-- Two rows: the only row with flag `-1` also has a missing `far_price`. -/
def tC3 : Table :=
  { cols := ["imbalance_buy_sell_flag", "far_price", "near_price"],
    rows := [fun c => if c = "imbalance_buy_sell_flag" then Val.num (-1) else
        if c = "near_price" then Val.num 1 else Val.nan,
      fun c => if c = "imbalance_buy_sell_flag" then Val.num 1 else Val.num 1] }

/-- C3 counterexample: the input's flag column observes the two distinct values
`-1` and `1`, but with `remove_missing=True` the only `-1` row is dropped
before encoding, so the result has a single indicator column (3 columns in
all instead of the claimed 2 + 2) and no column for `-1` under either name. -/
theorem C3_counterexample :
    (presentVals tC3 flagColName).dedup = [Val.num (-1), Val.num 1] ∧
      (data_preprocessing tC3 true).1.cols.length = 3 ∧
      tC3.cols.length = 3 ∧
      "imbalance_flag_neg_1" ∉ (data_preprocessing tC3 true).1.cols ∧
      "imbalance_flag_-1" ∉ (data_preprocessing tC3 true).1.cols := by
  refine ⟨by decide, by decide, by decide, by decide, by decide⟩

theorem fillFold_cols (cs : List String) (acc : Table) :
    (cs.foldl (fun a c => fillColWith a c (colMedian a c)) acc).cols = acc.cols := by
  induction cs generalizing acc with
  | nil => rfl
  | cons c cs ih => exact (ih _).trans rfl

theorem fillMissing_cols (t : Table) : (fillMissing t).cols = t.cols :=
  fillFold_cols _ _

theorem preEncode_cols (t : Table) (rm : Bool) : (preEncode t rm).cols = t.cols := by
  cases rm with
  | true => rfl
  | false => exact fillMissing_cols t

/-- A table whose column `x` is entirely missing. -/
def tC2 : Table :=
  { cols := ["far_price", "near_price", "imbalance_buy_sell_flag", "x"],
    rows := [fun c => if c = "x" then Val.nan else Val.num 1] }

/-- C2 counterexample: the all-missing column `x` keeps its `NaN` after
`data_preprocessing` with `remove_missing=False` — the median of a column with
no non-missing value is itself `NaN` and filling with it changes nothing — so
the result does contain a missing value. -/
theorem C2_counterexample :
    "x" ∈ (data_preprocessing tC2 false).1.cols ∧
      ((data_preprocessing tC2 false).1.rows.getD 0 dRow) "x" = Val.nan := by
  refine ⟨by decide, by decide⟩

theorem length_insertSorted (v : Val) (l : List Val) :
    (insertSorted v l).length = l.length + 1 := by
  induction l with
  | nil => rfl
  | cons w ws ih =>
      rw [insertSorted]
      split
      · simp
      · simp [ih]

theorem mem_insertSorted (x v : Val) (l : List Val) (h : x ∈ insertSorted v l) :
    x = v ∨ x ∈ l := by
  induction l with
  | nil =>
      simp [insertSorted] at h
      exact Or.inl h
  | cons w ws ih =>
      rw [insertSorted] at h
      split at h
      · rcases List.mem_cons.mp h with rfl | h2
        · exact Or.inl rfl
        · exact Or.inr h2
      · rcases List.mem_cons.mp h with rfl | h2
        · exact Or.inr (List.mem_cons_self _ _)
        · rcases ih h2 with h3 | h3
          · exact Or.inl h3
          · exact Or.inr (List.mem_cons_of_mem _ h3)

theorem length_sortVals (l : List Val) : (sortVals l).length = l.length := by
  induction l with
  | nil => rfl
  | cons a l ih =>
      show (insertSorted a (sortVals l)).length = l.length + 1
      rw [length_insertSorted, ih]

theorem mem_sortVals (x : Val) (l : List Val) (h : x ∈ sortVals l) : x ∈ l := by
  induction l with
  | nil => cases h
  | cons a l ih =>
      rcases mem_insertSorted x a (sortVals l) h with rfl | h2
      · exact List.mem_cons_self _ _
      · exact List.mem_cons_of_mem _ (ih h2)

theorem medianOf_num (l : List Val) (hne : l ≠ [])
    (hfin : ∀ v ∈ l, ∃ q : ℚ, v = Val.num q) : ∃ q : ℚ, medianOf l = Val.num q := by
  have hlen : (sortVals l).length = l.length := length_sortVals l
  have hpos : 0 < (sortVals l).length := by
    rw [hlen]
    exact List.length_pos.mpr hne
  have h0 : ¬((sortVals l).length = 0) := by omega
  by_cases hodd : (sortVals l).length % 2 = 1
  · have hidx : (sortVals l).length / 2 < (sortVals l).length :=
      Nat.div_lt_self hpos one_lt_two
    obtain ⟨q, hq⟩ := hfin _ (mem_sortVals _ l (getD_mem _ _ Val.nan hidx))
    refine ⟨q, ?_⟩
    show (if (sortVals l).length = 0 then Val.nan
      else if (sortVals l).length % 2 = 1 then (sortVals l).getD ((sortVals l).length / 2) Val.nan
      else Val.div (Val.add ((sortVals l).getD ((sortVals l).length / 2 - 1) Val.nan)
        ((sortVals l).getD ((sortVals l).length / 2) Val.nan)) (Val.num 2)) = Val.num q
    rw [if_neg h0, if_pos hodd]
    exact hq
  · have hidx : (sortVals l).length / 2 < (sortVals l).length :=
      Nat.div_lt_self hpos one_lt_two
    have hidx2 : (sortVals l).length / 2 - 1 < (sortVals l).length := by omega
    obtain ⟨q1, hq1⟩ := hfin _ (mem_sortVals _ l (getD_mem _ _ Val.nan hidx2))
    obtain ⟨q2, hq2⟩ := hfin _ (mem_sortVals _ l (getD_mem _ _ Val.nan hidx))
    refine ⟨(q1 + q2) / 2, ?_⟩
    show (if (sortVals l).length = 0 then Val.nan
      else if (sortVals l).length % 2 = 1 then (sortVals l).getD ((sortVals l).length / 2) Val.nan
      else Val.div (Val.add ((sortVals l).getD ((sortVals l).length / 2 - 1) Val.nan)
        ((sortVals l).getD ((sortVals l).length / 2) Val.nan)) (Val.num 2))
      = Val.num ((q1 + q2) / 2)
    rw [if_neg h0, if_neg hodd, hq1, hq2]
    simp [Val.add, Val.div]

theorem colVals_fillColWith_same (t : Table) (c : String) (v : Val) :
    colVals (fillColWith t c v) c
      = (colVals t c).map (fun x => if x = Val.nan then v else x) := by
  simp only [colVals, fillColWith, List.map_map]
  refine List.map_congr_left ?_
  intro r hr
  show (if c = c ∧ r c = Val.nan then v else r c) = if r c = Val.nan then v else r c
  by_cases h : r c = Val.nan
  · rw [if_pos ⟨rfl, h⟩, if_pos h]
  · rw [if_neg (fun hh => h hh.2), if_neg h]

theorem colVals_fillColWith_other (t : Table) (c c2 : String) (v : Val) (hne : c2 ≠ c) :
    colVals (fillColWith t c v) c2 = colVals t c2 := by
  simp only [colVals, fillColWith, List.map_map]
  refine List.map_congr_left ?_
  intro r hr
  show (if c2 = c ∧ r c2 = Val.nan then v else r c2) = r c2
  exact if_neg (fun hh => hne hh.1)

theorem fillFold_other (cs : List String) (acc : Table) (c2 : String) (h : c2 ∉ cs) :
    colVals (cs.foldl (fun a c => fillColWith a c (colMedian a c)) acc) c2
      = colVals acc c2 := by
  induction cs generalizing acc with
  | nil => rfl
  | cons c cs ih =>
      have h2 : c2 ∉ cs := fun hh => h (List.mem_cons_of_mem _ hh)
      have hne : c2 ≠ c := fun hh => h (hh ▸ List.mem_cons_self _ _)
      exact (ih _ h2).trans (colVals_fillColWith_other _ _ _ _ hne)

theorem fillFold_mem (cs : List String) (acc : Table) (c2 : String) (hnd : cs.Nodup)
    (h : c2 ∈ cs) :
    colVals (cs.foldl (fun a c => fillColWith a c (colMedian a c)) acc) c2
      = (colVals acc c2).map (fun x => if x = Val.nan then
          medianOf ((colVals acc c2).filter (fun v => v != Val.nan)) else x) := by
  induction cs generalizing acc with
  | nil => cases h
  | cons c cs ih =>
      obtain ⟨hc1, hc2⟩ := List.nodup_cons.mp hnd
      rcases List.mem_cons.mp h with rfl | hmem
      · show colVals (cs.foldl (fun a c => fillColWith a c (colMedian a c))
            (fillColWith acc c2 (colMedian acc c2))) c2 = _
        rw [fillFold_other cs _ c2 hc1, colVals_fillColWith_same]
        rfl
      · have hne : c2 ≠ c := fun hh => hc1 (hh ▸ hmem)
        have hcv : colVals (fillColWith acc c (colMedian acc c)) c2 = colVals acc c2 :=
          colVals_fillColWith_other _ _ _ _ hne
        show colVals (cs.foldl (fun a c => fillColWith a c (colMedian a c))
            (fillColWith acc c (colMedian acc c))) c2 = _
        rw [ih _ hc2 hmem, hcv]

/-- The two fixed-value fills that open the `remove_missing=False` branch. -/
def fillFarNear (data : Table) : Table :=
  fillColWith (fillColWith data "far_price" (Val.num 0)) "near_price" (Val.num 0)

theorem fillMissing_eq (t : Table) :
    fillMissing t = (colsWithMissing (fillFarNear t)).foldl
      (fun acc c => fillColWith acc c (colMedian acc c)) (fillFarNear t) := rfl

theorem fillFarNear_cols (t : Table) : (fillFarNear t).cols = t.cols := rfl

theorem fillFarNear_far (t : Table) :
    colVals (fillFarNear t) "far_price"
      = (colVals t "far_price").map (fun x => if x = Val.nan then Val.num 0 else x) := by
  rw [fillFarNear, colVals_fillColWith_other _ _ _ _ (by decide), colVals_fillColWith_same]

theorem fillFarNear_near (t : Table) :
    colVals (fillFarNear t) "near_price"
      = (colVals t "near_price").map (fun x => if x = Val.nan then Val.num 0 else x) := by
  rw [fillFarNear, colVals_fillColWith_same, colVals_fillColWith_other _ _ _ _ (by decide)]

theorem fillFarNear_other (t : Table) (c : String) (hf : c ≠ "far_price")
    (hn : c ≠ "near_price") : colVals (fillFarNear t) c = colVals t c := by
  rw [fillFarNear, colVals_fillColWith_other _ _ _ _ hn, colVals_fillColWith_other _ _ _ _ hf]

theorem colsWithMissing_spec (t : Table) (c : String) :
    c ∈ colsWithMissing t ↔ c ∈ t.cols ∧ ∃ x ∈ colVals t c, x = Val.nan := by
  rw [colsWithMissing, List.mem_filter]
  constructor
  · rintro ⟨h1, h2⟩
    obtain ⟨r, hr, hr2⟩ := List.any_eq_true.mp h2
    exact ⟨h1, ⟨r c, List.mem_map_of_mem _ hr, by simpa using hr2⟩⟩
  · rintro ⟨h1, x, hx, rfl⟩
    obtain ⟨r, hr, hrx⟩ := List.mem_map.mp hx
    exact ⟨h1, List.any_eq_true.mpr ⟨r, hr, by simp [hrx]⟩⟩

/-- `true` iff the cell is finite or missing — not a signed infinity. -/
def finOrMissing : Val → Bool
  | Val.inf => false
  | Val.neginf => false
  | _ => true

theorem finOrMissing_num (x : Val) (h : finOrMissing x = true) (hn : x ≠ Val.nan) :
    ∃ q : ℚ, x = Val.num q := by
  cases x <;> simp_all [finOrMissing]

theorem mem_fillMap_ne_nan (w : Val) (hw : w ≠ Val.nan) (l : List Val) (x : Val)
    (hx : x ∈ l.map (fun y => if y = Val.nan then w else y)) : x ≠ Val.nan := by
  obtain ⟨y, hy, rfl⟩ := List.mem_map.mp hx
  by_cases h : y = Val.nan
  · rw [if_pos h]
    exact hw
  · rw [if_neg h]
    exact h

/-- A column of a table without missing entries. -/
def colClean (t : Table) (c : String) : Prop := ∀ x ∈ colVals t c, x ≠ Val.nan

theorem far_not_missing (t : Table) : "far_price" ∉ colsWithMissing (fillFarNear t) := by
  intro hmem
  obtain ⟨h1, x, hx, rfl⟩ := (colsWithMissing_spec _ _).mp hmem
  rw [fillFarNear_far] at hx
  exact mem_fillMap_ne_nan _ (by simp) _ _ hx rfl

theorem near_not_missing (t : Table) : "near_price" ∉ colsWithMissing (fillFarNear t) := by
  intro hmem
  obtain ⟨h1, x, hx, rfl⟩ := (colsWithMissing_spec _ _).mp hmem
  rw [fillFarNear_near] at hx
  exact mem_fillMap_ne_nan _ (by simp) _ _ hx rfl

theorem fillMissing_far (t : Table) :
    colVals (fillMissing t) "far_price"
      = (colVals t "far_price").map (fun x => if x = Val.nan then Val.num 0 else x) := by
  rw [fillMissing_eq, fillFold_other _ _ _ (far_not_missing t), fillFarNear_far]

theorem fillMissing_near (t : Table) :
    colVals (fillMissing t) "near_price"
      = (colVals t "near_price").map (fun x => if x = Val.nan then Val.num 0 else x) := by
  rw [fillMissing_eq, fillFold_other _ _ _ (near_not_missing t), fillFarNear_near]

theorem fillMissing_other (t : Table) (c : String) (hnd : t.cols.Nodup)
    (hf : c ≠ "far_price") (hn : c ≠ "near_price")
    (hmiss : ∃ x ∈ colVals t c, x = Val.nan) (hcol : c ∈ t.cols) :
    colVals (fillMissing t) c
      = (colVals t c).map (fun x => if x = Val.nan then
          medianOf ((colVals t c).filter (fun v => v != Val.nan)) else x) := by
  have hcv : colVals (fillFarNear t) c = colVals t c := fillFarNear_other t c hf hn
  have hcm : c ∈ colsWithMissing (fillFarNear t) := by
    rw [colsWithMissing_spec, fillFarNear_cols, hcv]
    exact ⟨hcol, hmiss⟩
  have hcmnd : (colsWithMissing (fillFarNear t)).Nodup := by
    rw [colsWithMissing]
    exact List.Nodup.filter _ hnd
  rw [fillMissing_eq, fillFold_mem _ _ _ hcmnd hcm, hcv]

theorem fillMissing_nomiss (t : Table) (c : String)
    (hmiss : ¬∃ x ∈ colVals (fillFarNear t) c, x = Val.nan) :
    colVals (fillMissing t) c = colVals (fillFarNear t) c := by
  have hcm : c ∉ colsWithMissing (fillFarNear t) := by
    rw [colsWithMissing_spec]
    exact fun hh => hmiss hh.2
  rw [fillMissing_eq, fillFold_other _ _ _ hcm]

theorem fillMissing_clean (t : Table) (hnd : t.cols.Nodup)
    (hok : ∀ c ∈ t.cols, ∀ x ∈ colVals t c, finOrMissing x = true)
    (hpres : ∀ c ∈ t.cols, c ≠ "far_price" → c ≠ "near_price" →
      ∃ x ∈ colVals t c, x ≠ Val.nan) :
    ∀ c ∈ t.cols, colClean (fillMissing t) c := by
  intro c hc
  by_cases hf : c = "far_price"
  · subst hf
    intro x hx
    rw [fillMissing_far] at hx
    exact mem_fillMap_ne_nan _ (by simp) _ _ hx
  by_cases hn : c = "near_price"
  · subst hn
    intro x hx
    rw [fillMissing_near] at hx
    exact mem_fillMap_ne_nan _ (by simp) _ _ hx
  by_cases hmiss : ∃ x ∈ colVals t c, x = Val.nan
  · obtain ⟨xp, hxp, hxpne⟩ := hpres c hc hf hn
    have hfne : (colVals t c).filter (fun v => v != Val.nan) ≠ [] := by
      apply List.ne_nil_of_mem (a := xp)
      exact List.mem_filter.mpr ⟨hxp, by simpa using hxpne⟩
    have hffin : ∀ v ∈ (colVals t c).filter (fun v => v != Val.nan), ∃ q : ℚ, v = Val.num q := by
      intro v hv
      have hv1 := List.mem_of_mem_filter hv
      have hv2 : v ≠ Val.nan := by simpa using (List.mem_filter.mp hv).2
      exact finOrMissing_num v (hok c hc v hv1) hv2
    obtain ⟨q, hq⟩ := medianOf_num _ hfne hffin
    intro x hx
    rw [fillMissing_other t c hnd hf hn hmiss hc, hq] at hx
    exact mem_fillMap_ne_nan _ (by simp) _ _ hx
  · intro x hx
    have hcv : colVals (fillFarNear t) c = colVals t c := fillFarNear_other t c hf hn
    rw [fillMissing_nomiss t c (by rw [hcv]; exact hmiss), hcv] at hx
    intro hxe
    exact hmiss ⟨x, hx, hxe⟩

theorem encodeFlag_clean (t : Table) (h : ∀ c ∈ t.cols, colClean t c) :
    ∀ c ∈ (encodeFlag t).cols, colClean (encodeFlag t) c := by
  intro c hc x hx
  obtain ⟨r, hr, hrx⟩ := List.mem_map.mp hx
  obtain ⟨r0, hr0, hre⟩ := List.mem_map.mp hr
  subst hre
  have hrx2 : (match (flagVals t).find? (fun v => flagName v == c) with
    | some v => if r0 flagColName = v then Val.num 1 else Val.num 0
    | none => r0 c) = x := hrx
  clear hrx
  cases hfind : (flagVals t).find? (fun v => flagName v == c) with
  | some v =>
      rw [hfind] at hrx2
      simp only at hrx2
      subst hrx2
      by_cases hv : r0 flagColName = v
      · rw [if_pos hv]
        simp
      · rw [if_neg hv]
        simp
  | none =>
      rw [hfind] at hrx2
      simp only at hrx2
      subst hrx2
      rcases List.mem_append.mp hc with h1 | h1
      · exact h c (List.mem_of_mem_filter h1) (r0 c) (List.mem_map_of_mem _ hr0)
      · obtain ⟨v0, hv0, rfl⟩ := List.mem_map.mp h1
        have := List.find?_eq_none.mp hfind v0 hv0
        simp at this

theorem renameCol_clean (t : Table) (o n2 : String) (h : ∀ c ∈ t.cols, colClean t c) :
    ∀ c ∈ (renameCol t o n2).cols, colClean (renameCol t o n2) c := by
  by_cases ho : o ∈ t.cols
  · simp only [renameCol, if_pos ho]
    intro c hc x hx
    obtain ⟨r, hr, hrx⟩ := List.mem_map.mp hx
    obtain ⟨r0, hr0, hre⟩ := List.mem_map.mp hr
    subst hre
    have hrx2 : (if c = n2 then r0 o else r0 c) = x := hrx
    clear hrx
    by_cases hcn : c = n2
    · rw [if_pos hcn] at hrx2
      subst hrx2
      exact h o ho (r0 o) (List.mem_map_of_mem _ hr0)
    · rw [if_neg hcn] at hrx2
      subst hrx2
      obtain ⟨c0, hc0, hfc⟩ := List.mem_map.mp hc
      by_cases hco : c0 = o
      · rw [if_pos hco] at hfc
        exact absurd hfc.symm hcn
      · rw [if_neg hco] at hfc
        subst hfc
        exact h c0 hc0 (r0 c0) (List.mem_map_of_mem _ hr0)
  · simp only [renameCol, if_neg ho]
    exact h

theorem encodeFlag_colVals_of (t : Table) (c : String)
    (hne : ∀ v ∈ flagVals t, flagName v ≠ c) :
    colVals (encodeFlag t) c = colVals t c := by
  have hfind : (flagVals t).find? (fun v => flagName v == c) = none :=
    List.find?_eq_none.mpr (fun v hv => by simpa using hne v hv)
  simp only [colVals, encodeFlag, List.map_map]
  refine List.map_congr_left ?_
  intro r hr
  show (match (flagVals t).find? (fun v => flagName v == c) with
    | some v => if r flagColName = v then Val.num 1 else Val.num 0
    | none => r c) = r c
  rw [hfind]

theorem renameCol_colVals_of (t : Table) (o n2 c : String) (hcn : c ≠ n2) :
    colVals (renameCol t o n2) c = colVals t c := by
  by_cases ho : o ∈ t.cols
  · simp only [renameCol, if_pos ho, colVals, List.map_map]
    refine List.map_congr_left ?_
    intro r hr
    show (if c = n2 then r o else r c) = r c
    exact if_neg hcn
  · simp only [renameCol, if_neg ho]

theorem flagName_ne_short (v : Val) (s : String) (hs : s.length < 15) : flagName v ≠ s := by
  intro h
  have h2 := congrArg String.length h
  rw [flagName, String.length_append] at h2
  have h3 : ("imbalance_flag_" : String).length = 15 := by decide
  omega

/-- C2 amended: after `data_preprocessing` with `remove_missing=False`, the
result has no missing value in any column **provided every column other than
`far_price`/`near_price` has at least one non-missing entry** (and the data is
free of infinities); a column with no non-missing value keeps its `NaN`s, since
its median is `NaN` and filling with `NaN` changes nothing.  Missing
`far_price`/`near_price` entries become exactly `0`, and the missing entries of
any other (label-collision-free) column become that column's median over its
non-missing values, computed independently per column. -/
theorem C2_amended (t : Table) (hnd : t.cols.Nodup)
    (hok : ∀ c ∈ t.cols, ∀ x ∈ colVals t c, finOrMissing x = true)
    (hpres : ∀ c ∈ t.cols, c ≠ "far_price" → c ≠ "near_price" →
      ∃ x ∈ colVals t c, x ≠ Val.nan) :
    (∀ c ∈ (data_preprocessing t false).1.cols,
      ∀ x ∈ colVals (data_preprocessing t false).1 c, x ≠ Val.nan) ∧
      colVals (data_preprocessing t false).1 "far_price"
        = (colVals t "far_price").map (fun x => if x = Val.nan then Val.num 0 else x) ∧
      colVals (data_preprocessing t false).1 "near_price"
        = (colVals t "near_price").map (fun x => if x = Val.nan then Val.num 0 else x) ∧
      ∀ c ∈ t.cols, c ≠ "far_price" → c ≠ "near_price" → c ≠ flagColName →
        c ≠ "imbalance_flag_neg_1" →
        (∀ v ∈ flagVals (fillMissing t), flagName v ≠ c) →
        (∃ x ∈ colVals t c, x = Val.nan) →
        colVals (data_preprocessing t false).1 c
          = (colVals t c).map (fun x => if x = Val.nan then
              medianOf ((colVals t c).filter (fun v => v != Val.nan)) else x) := by
  have hclean0 : ∀ c ∈ t.cols, colClean (fillMissing t) c := fillMissing_clean t hnd hok hpres
  have hclean1 : ∀ c ∈ (fillMissing t).cols, colClean (fillMissing t) c := by
    rw [fillMissing_cols]
    exact hclean0
  have hclean2 := encodeFlag_clean _ hclean1
  have hclean3 := renameCol_clean (encodeFlag (fillMissing t))
    "imbalance_flag_-1" "imbalance_flag_neg_1" hclean2
  refine ⟨hclean3, ?_, ?_, ?_⟩
  · calc colVals (data_preprocessing t false).1 "far_price"
        = colVals (encodeFlag (fillMissing t)) "far_price" :=
          renameCol_colVals_of _ _ _ _ (by decide)
      _ = colVals (fillMissing t) "far_price" :=
          encodeFlag_colVals_of _ _ (fun v hv => flagName_ne_short v _ (by decide))
      _ = (colVals t "far_price").map (fun x => if x = Val.nan then Val.num 0 else x) :=
          fillMissing_far t
  · calc colVals (data_preprocessing t false).1 "near_price"
        = colVals (encodeFlag (fillMissing t)) "near_price" :=
          renameCol_colVals_of _ _ _ _ (by decide)
      _ = colVals (fillMissing t) "near_price" :=
          encodeFlag_colVals_of _ _ (fun v hv => flagName_ne_short v _ (by decide))
      _ = (colVals t "near_price").map (fun x => if x = Val.nan then Val.num 0 else x) :=
          fillMissing_near t
  · intro c hc hf hn hflag hneg hnames hmiss
    calc colVals (data_preprocessing t false).1 c
        = colVals (encodeFlag (fillMissing t)) c := renameCol_colVals_of _ _ _ _ hneg
      _ = colVals (fillMissing t) c := encodeFlag_colVals_of _ _ hnames
      _ = (colVals t c).map (fun x => if x = Val.nan then
            medianOf ((colVals t c).filter (fun v => v != Val.nan)) else x) :=
          fillMissing_other t c hnd hf hn hmiss hc

/-- A two-row table: `far_price` missing in the first row, `y` missing in the
second, every column with at least one non-missing entry. -/
def tW2 : Table :=
  { cols := ["far_price", "near_price", "imbalance_buy_sell_flag", "y"],
    rows := [fun c => if c = "far_price" then Val.nan else
        if c = "y" then Val.num 2 else Val.num 1,
      fun c => if c = "y" then Val.nan else Val.num 1] }

/-- Witness for `C2_amended` at a concrete input. -/
theorem C2_witness :
    colVals (data_preprocessing tW2 false).1 "far_price"
      = (colVals tW2 "far_price").map (fun x => if x = Val.nan then Val.num 0 else x) :=
  (C2_amended tW2 (by decide) (by decide) (by decide)).2.1

/-- `true` iff every entry of the `imbalance_buy_sell_flag` column of the given
(input) table is a present integral number.  This models `read_csv`'s dtype
inference for integer-formatted source data: such a column is `int64`, and the
dtype survives `dropna` and `fillna`; a column with any missing entry is
`float64` instead, and `get_dummies` then renders its labels with a decimal
point, outside this model's `valName`. -/
def flagIsInt (data : Table) : Bool :=
  (colVals data flagColName).all (fun v =>
    match v with
    | Val.num q => q.den == 1
    | _ => false)

theorem flagIsInt_no_nan (t : Table) (hdt : flagIsInt t = true) :
    ¬∃ x ∈ colVals t flagColName, x = Val.nan := by
  rintro ⟨x, hx, rfl⟩
  have h := List.all_eq_true.mp hdt _ hx
  simp at h

theorem flagIsInt_integral (t : Table) (hdt : flagIsInt t = true) (x : Val)
    (hx : x ∈ colVals t flagColName) : ∃ z : ℤ, x = Val.num (z : ℚ) := by
  have h := List.all_eq_true.mp hdt _ hx
  cases x with
  | num q =>
      refine ⟨q.num, ?_⟩
      have hd : q.den = 1 := by simpa using h
      rw [(Rat.den_eq_one_iff q).mp hd]
  | nan => simp at h
  | inf => simp at h
  | neginf => simp at h

theorem preEncode_flag_sub (t : Table) (rm : Bool) (hdt : flagIsInt t = true) (v : Val)
    (hv : v ∈ colVals (preEncode t rm) flagColName) : v ∈ colVals t flagColName := by
  cases rm with
  | true =>
      obtain ⟨r, hr, rfl⟩ := List.mem_map.mp hv
      exact List.mem_map_of_mem _ (List.mem_of_mem_filter hr)
  | false =>
      have hcv : colVals (fillFarNear t) flagColName = colVals t flagColName :=
        fillFarNear_other t _ (by decide) (by decide)
      have hnonan : ¬∃ x ∈ colVals (fillFarNear t) flagColName, x = Val.nan := by
        rw [hcv]
        exact flagIsInt_no_nan t hdt
      rw [show preEncode t false = fillMissing t from rfl,
        fillMissing_nomiss t _ hnonan, hcv] at hv
      exact hv

/-- C3 amended: when the input's `imbalance_buy_sell_flag` column is `int64` —
every entry present and integral, as the data model's categorical `{-1, 0, 1}`
prescribes — the preprocessed table has exactly one indicator column per
distinct value present in the flag column at encoding time, those values stay
integral through either branch (so the `int64` label rendering remains
faithful), the columns are named `imbalance_flag_<value>` with the `-1` column
renamed `imbalance_flag_neg_1`, and no column named `imbalance_flag_-1`
survives.  The set of values observed in the input does not govern the
columns: `remove_missing=True` can drop every row holding a value.  A flag
column that ever held a missing entry is `float64`; its labels render like
`imbalance_flag_-1.0` and the rename is a no-op — outside this scope (see
`valName`). -/
theorem C3_amended (t : Table) (rm : Bool) (hbad : "imbalance_flag_-1" ∉ t.cols)
    (hdt : flagIsInt t = true) :
    (data_preprocessing t rm).1.cols
      = t.cols.filter (fun c => c != flagColName)
        ++ (flagVals (preEncode t rm)).map
            (fun v => if flagName v = "imbalance_flag_-1" then "imbalance_flag_neg_1"
              else flagName v) ∧
      (∀ v ∈ flagVals (preEncode t rm), ∃ z : ℤ, v = Val.num (z : ℚ)) ∧
      "imbalance_flag_-1" ∉ (data_preprocessing t rm).1.cols ∧
      (Val.num (-1) ∈ flagVals (preEncode t rm) →
        "imbalance_flag_neg_1" ∈ (data_preprocessing t rm).1.cols) := by
  have hEcols : (encodeFlag (preEncode t rm)).cols
      = t.cols.filter (fun c => c != flagColName)
        ++ (flagVals (preEncode t rm)).map flagName := by
    rw [show (encodeFlag (preEncode t rm)).cols
        = (preEncode t rm).cols.filter (fun c => c != flagColName)
          ++ (flagVals (preEncode t rm)).map flagName from rfl,
      preEncode_cols t rm]
  have hfilter : ∀ c ∈ t.cols.filter (fun c => c != flagColName),
      c ≠ "imbalance_flag_-1" := by
    intro c hc he
    exact hbad (he ▸ List.mem_of_mem_filter hc)
  have hintvals : ∀ v ∈ flagVals (preEncode t rm), ∃ z : ℤ, v = Val.num (z : ℚ) := by
    intro v hv
    have h1 : v ∈ (presentVals (preEncode t rm) flagColName).dedup := mem_sortVals _ _ hv
    have h2 : v ∈ presentVals (preEncode t rm) flagColName := List.mem_dedup.mp h1
    have h3 : v ∈ colVals (preEncode t rm) flagColName := List.mem_of_mem_filter h2
    exact flagIsInt_integral t hdt v (preEncode_flag_sub t rm hdt v h3)
  have hmain : (data_preprocessing t rm).1.cols
      = t.cols.filter (fun c => c != flagColName)
        ++ (flagVals (preEncode t rm)).map
            (fun v => if flagName v = "imbalance_flag_-1" then "imbalance_flag_neg_1"
              else flagName v) := by
    show (renameCol (encodeFlag (preEncode t rm))
      "imbalance_flag_-1" "imbalance_flag_neg_1").cols = _
    by_cases hin : "imbalance_flag_-1" ∈ (encodeFlag (preEncode t rm)).cols
    · rw [renameCol, if_pos hin]
      show (encodeFlag (preEncode t rm)).cols.map
        (fun c => if c = "imbalance_flag_-1" then "imbalance_flag_neg_1" else c) = _
      rw [hEcols, List.map_append, List.map_map]
      congr 1
      exact (List.map_congr_left (fun c hc => if_neg (hfilter c hc))).trans
        (List.map_id _)
    · rw [renameCol, if_neg hin]
      rw [hEcols]
      congr 1
      refine List.map_congr_left ?_
      intro v hv
      have hne : flagName v ≠ "imbalance_flag_-1" := by
        intro he
        exact hin (hEcols ▸ List.mem_append_right _ (he ▸ List.mem_map_of_mem flagName hv))
      rw [if_neg hne]
  refine ⟨hmain, hintvals, ?_, ?_⟩
  · rw [hmain]
    intro hmem
    rcases List.mem_append.mp hmem with h1 | h2
    · exact hfilter _ h1 rfl
    · obtain ⟨v, hv, hveq⟩ := List.mem_map.mp h2
      by_cases hb : flagName v = "imbalance_flag_-1"
      · rw [if_pos hb] at hveq
        exact absurd hveq (by decide)
      · rw [if_neg hb] at hveq
        exact hb hveq
  · intro hneg1
    rw [hmain]
    refine List.mem_append_right _ ?_
    refine List.mem_map.mpr ⟨Val.num (-1), hneg1, ?_⟩
    rw [if_pos (by decide)]

/-- A one-row table holding only the flag column, with the integral value `1`. -/
def tW3 : Table := { cols := [flagColName], rows := [fun _ => Val.num 1] }

/-- Witness for `C3_amended` at a concrete input. -/
theorem C3_witness : "imbalance_flag_-1" ∉ (data_preprocessing tW3 false).1.cols :=
  (C3_amended tW3 false (by decide) (by decide)).2.2.1
